import Mathlib

/-!
Verification development for a Markdown-token-tree → Slack-block converter.

The definitions below are a shallow embedding of the program:
* the block constructors of `slack.ts` (`section`, `divider`, `header`,
  `image`, `table`) become `mkSection`, `mkDivider`, `mkHeader`, `mkImage`,
  `mkTable` (the name `section` is a Lean keyword, hence the `mk` prefix);
* the converter of `parser/internal.ts` (`parsePlainText`, `parseMrkdwn`,
  `addMrkdwn`, `parsePhrasingContent`, `parseParagraph`, `parseHeading`,
  `parseCode`, `parseList`, `parseTableCellToRichText`, `parseTable`,
  `parseBlockquote`, `parseThematicBreak`, `parseHTML`, `parseToken`,
  `parseBlocks`) keeps its names;
* the input token tree of the external `marked` tokenizer becomes the
  inductive `Token`; JavaScript strings become `String` with character-level
  `slice`/`replace` embedded as list operations on `String.data`.

The external XML parser used by `parseHTML` (fast-xml-parser) is an external
collaborator: its parse result for a raw-HTML token is carried on the token
itself (field `imgResult` of the `html` constructor) instead of being
recomputed from the raw text.
-/

/-- Embeds JavaScript `s.slice(0, n)`: the first `n` characters of `s`. -/
def strTake (s : String) (n : Nat) : String := ⟨s.data.take n⟩

/-- Embeds JavaScript `a || b` on strings: `b` when `a` is empty (falsy). -/
def strOr (a b : String) : String := if a = "" then b else a

/-- Embeds `s.includes('\n')`. -/
def strHasNl (s : String) : Bool := s.data.contains '\n'

/-- Embeds `s.replace(/\n/g, '\n> ')`. -/
def replaceNl (s : String) : String :=
  ⟨s.data.flatMap (fun c => if c = '\n' then ['\n', '>', ' '] else [c])⟩

/-- An `<img>` tag extracted by the external XML parser: its `@_src` and
optional `@_alt` attributes. -/
structure ImgTag where
  src : String
  alt : Option String

/-- The shape of `res.img` in `parseHTML`: either a single object or an
array (`res.img instanceof Array`). -/
inductive ImgParse where
  | single (img : ImgTag)
  | multiple (imgs : List ImgTag)

mutual
/-- The input token tree (the `marked` tokenizer's tokens,
read-only input of the converter). Each constructor carries the fields the
converter reads; `html` additionally carries the external XML parse result
used by `parseHTML` (see the module docstring). -/
inductive Token where
  | text (raw : String) (text : String) (tokens : Option (List Token))
  | link (href : String) (text : String) (tokens : List Token)
  | em (text : String) (tokens : List Token)
  | strong (text : String) (tokens : List Token)
  | del (text : String) (tokens : List Token)
  | br (raw : String)
  | image (href : String) (text : String) (title : Option String)
  | codespan (raw : String) (text : String)
  | html (raw : String) (text : String) (imgResult : Option ImgParse)
  | heading (text : String) (tokens : List Token)
  | paragraph (tokens : List Token)
  | code (text : String)
  | blockquote (text : String) (tokens : List Token)
  | list (ordered : Bool) (items : List ListItem)
  | table (header : List (List Token)) (rows : List (List (List Token)))
  | hr
  | space
  | other (kind : String) (text : Option String)

/-- A `marked` list item: its child tokens and its checkbox state
(`checked` is absent/null for non-checklist items). -/
inductive ListItem where
  | mk (tokens : List Token) (checked : Option Bool)
end

/-- The `type` discriminator string of a token. -/
def Token.kind : Token → String
  | .text .. => "text"
  | .link .. => "link"
  | .em .. => "em"
  | .strong .. => "strong"
  | .del .. => "del"
  | .br .. => "br"
  | .image .. => "image"
  | .codespan .. => "codespan"
  | .html .. => "html"
  | .heading .. => "heading"
  | .paragraph .. => "paragraph"
  | .code .. => "code"
  | .blockquote .. => "blockquote"
  | .list .. => "list"
  | .table .. => "table"
  | .hr => "hr"
  | .space => "space"
  | .other kind _ => kind

/-- The `.text` field of a token, `none` where `marked` defines no such
field (so that JavaScript `token.text` is `undefined`). -/
def Token.textField : Token → Option String
  | .text _ t _ => some t
  | .link _ t _ => some t
  | .em t _ => some t
  | .strong t _ => some t
  | .del t _ => some t
  | .br _ => none
  | .image _ t _ => some t
  | .codespan _ t => some t
  | .html _ t _ => some t
  | .heading t _ => some t
  | .paragraph _ => none
  | .code t => some t
  | .blockquote t _ => some t
  | .list _ _ => none
  | .table _ _ => none
  | .hr => none
  | .space => none
  | .other _ t => t

def ListItem.tokens : ListItem → List Token
  | .mk ts _ => ts

def ListItem.checked : ListItem → Option Bool
  | .mk _ c => c

/-- A rich-text style object such as `{bold: true}`; absent flags are
`false` (JavaScript `undefined` is falsy). -/
structure Style where
  bold : Bool
  italic : Bool
  strike : Bool
  code : Bool
deriving DecidableEq, Repr

/-- A run inside a rich-text section: `RichTextText` (`{type:'text', text,
style?}`) or `RichTextLink` (`{type:'link', text, url}`). -/
inductive RichTextElem where
  | text (text : String) (style : Option Style)
  | link (text : String) (url : String)
deriving DecidableEq, Repr

/-- A table cell value: `RawTextElement` or a `rich_text` block whose
`elements` are `rich_text_section`s, each a list of runs. -/
inductive CellResult where
  | rawText (text : String)
  | richText (sections : List (List RichTextElem))
deriving DecidableEq, Repr

/-- A `{type, text}` text object (`mrkdwn` or `plain_text`). -/
structure TextObj where
  type : String
  text : String
deriving DecidableEq, Repr

/-- The output block union (`KnownBlock` of `@slack/types`), restricted to
the variants this program constructs. `sectionBlock.text` is always present
because every section is built by the `section` constructor. -/
inductive KnownBlock where
  | sectionBlock (text : TextObj)
  | dividerBlock
  | headerBlock (text : TextObj)
  | imageBlock (imageUrl : String) (altText : String) (title : Option TextObj)
  | tableBlock (rows : List (List CellResult))
deriving DecidableEq, Repr

def MAX_TEXT_LENGTH : Nat := 3000
def MAX_TABLE_ROWS : Nat := 100
def MAX_TABLE_COLUMNS : Nat := 20
def MAX_HEADER_LENGTH : Nat := 150
def MAX_IMAGE_TITLE_LENGTH : Nat := 2000
def MAX_IMAGE_ALT_TEXT_LENGTH : Nat := 2000

/-- Embeds `slack.ts` `section`: a section block with `mrkdwn` text capped at
`MAX_TEXT_LENGTH`. -/
def mkSection (text : String) : KnownBlock :=
  .sectionBlock ⟨"mrkdwn", strTake text MAX_TEXT_LENGTH⟩

/-- Embeds `slack.ts` `divider`. -/
def mkDivider : KnownBlock := .dividerBlock

/-- Embeds `slack.ts` `header`: plain text capped at `MAX_HEADER_LENGTH`. -/
def mkHeader (text : String) : KnownBlock :=
  .headerBlock ⟨"plain_text", strTake text MAX_HEADER_LENGTH⟩

/-- Embeds `slack.ts` `image`: alt text capped at `MAX_IMAGE_ALT_TEXT_LENGTH`; the
title object is built only when `title` is truthy (present and nonempty),
capped at `MAX_IMAGE_TITLE_LENGTH`. -/
def mkImage (url : String) (altText : String) (title : Option String) :
    KnownBlock :=
  .imageBlock url (strTake altText MAX_IMAGE_ALT_TEXT_LENGTH)
    (match title with
     | some t => if t = "" then none
                 else some ⟨"plain_text", strTake t MAX_IMAGE_TITLE_LENGTH⟩
     | none => none)

/-- Embeds `slack.ts` `table`: rows truncated to `MAX_TABLE_ROWS`, every row to
`MAX_TABLE_COLUMNS` cells. -/
def mkTable (rows : List (List CellResult)) : KnownBlock :=
  .tableBlock ((rows.take MAX_TABLE_ROWS).map
    (fun row => row.take MAX_TABLE_COLUMNS))

/-- Modelled from the spec: `ListOptions` of `types.ts` is not under `src`;
per the spec the only recognized option is a checkbox-prefix function
`(checked: boolean) → string`. The field embeds `options.checkboxPrefix`. -/
structure ListOptions where
  checkboxPrefixFn : Option (Bool → String)

/-- Modelled from the spec: `ParsingOptions` of `types.ts` is not under
`src`; it carries the list options consumed by `parseList`. -/
structure ParsingOptions where
  lists : ListOptions

def defaultListOptions : ListOptions := ⟨none⟩

def defaultOptions : ParsingOptions := ⟨defaultListOptions⟩

mutual
/-- Embeds `parsePlainText`: flatten an inline token to its plain-text fragments.
Non-phrasing kinds cannot reach this function (TypeScript restricts the
argument to `PhrasingToken`); they map to `[]`. -/
def parsePlainText : Token → List String
  | .link _ _ tokens => plainTextList tokens
  | .em _ tokens => plainTextList tokens
  | .strong _ tokens => plainTextList tokens
  | .del _ tokens => plainTextList tokens
  | .br _ => []
  | .image href _ title =>
      [match title with
       | some t => t
       | none => href]
  | .codespan raw _ => [raw]
  | .text raw _ _ => [raw]
  | .html raw _ _ => [raw]
  | _ => []

/-- Embeds `element.tokens.flatMap(child => parsePlainText(child))`. -/
def plainTextList : List Token → List String
  | [] => []
  | t :: ts => parsePlainText t ++ plainTextList ts
end

mutual
/-- Embeds `parseMrkdwn`: render an inline token (never an image, which the
callers filter out or handle separately) into the restricted `mrkdwn`
inline markup. The default switch branch returns the empty string. -/
def parseMrkdwn : Token → String
  | .link href _ tokens => "<" ++ href ++ "|" ++ mrkdwnList tokens ++ "> "
  | .em _ tokens => "_" ++ mrkdwnList tokens ++ "_"
  | .codespan _ t => "`" ++ t ++ "`"
  | .strong _ tokens => "*" ++ mrkdwnList tokens ++ "*"
  | .text _ t _ => t
  | .del _ tokens => "~" ++ mrkdwnList tokens ++ "~"
  | _ => ""

/-- Embeds `element.tokens.flatMap(child => parseMrkdwn(child)).join('')`. -/
def mrkdwnList : List Token → String
  | [] => ""
  | t :: ts => parseMrkdwn t ++ mrkdwnList ts
end

/-- Embeds `isSectionBlock`. -/
def isSectionBlock : KnownBlock → Bool
  | .sectionBlock _ => true
  | _ => false

/-- Embeds `addMrkdwn`: append `content` to the text of the last accumulated block
when that block is a section (uncapped mutation `last.text.text +=
content`); otherwise push a fresh capped section. -/
def addMrkdwn (content : String) (accumulator : List KnownBlock) :
    List KnownBlock :=
  match accumulator.getLast? with
  | some (.sectionBlock t) =>
      accumulator.dropLast ++ [.sectionBlock ⟨t.type, t.text ++ content⟩]
  | _ => accumulator ++ [mkSection content]

/-- Embeds `parsePhrasingContent`: an image token pushes its own image block; any
other phrasing token is rendered and merged via `addMrkdwn`. -/
def parsePhrasingContent (element : Token)
    (accumulator : List KnownBlock) : List KnownBlock :=
  match element with
  | .image href text title =>
      accumulator ++ [mkImage href (strOr text (strOr (title.getD "") href)) title]
  | _ => addMrkdwn (parseMrkdwn element) accumulator

/-- Embeds `parseParagraph`: reduce over the paragraph's phrasing children. -/
def parseParagraph (tokens : List Token) : List KnownBlock :=
  tokens.foldl (fun accumulator child => parsePhrasingContent child accumulator) []

/-- Embeds `parseHeading`: one header block from the flattened children text. -/
def parseHeading (tokens : List Token) : KnownBlock :=
  mkHeader (String.join (plainTextList tokens))

/-- Embeds `parseCode`: one section with the code fenced in a triple-backtick
block. -/
def parseCode (text : String) : KnownBlock :=
  mkSection ("```\n" ++ text ++ "\n```")

/-- Embeds `paragraph.tokens.filter(child => child.type !== 'image')`. -/
def nonImageTokens (tokens : List Token) : List Token :=
  tokens.filter (fun child =>
    match child with
    | .image .. => false
    | _ => true)

/-- The body of `parseList`'s `items.map(...)` with its closure-captured
mutable `index`, written as explicit recursion threading the index: a
malformed item (first child missing, not of kind `text`, or with no nested
tokens) yields `paragraph?.text || ''` and leaves the index unchanged;
otherwise ordered items get `{index}. `, checklist items the checkbox
prefix (`options.checkboxPrefix?.(checked) ?? '• '`), and other items
`• `. -/
def parseListItems (ordered : Bool) (options : ListOptions) (index : Nat) :
    List ListItem → List String
  | [] => []
  | item :: rest =>
    match item.tokens.head? with
    | some (.text _ _ (some (tok :: toks))) =>
        let text := mrkdwnList (nonImageTokens (tok :: toks))
        if ordered then
          (toString (index + 1) ++ ". " ++ text)
            :: parseListItems ordered options (index + 1) rest
        else
          match item.checked with
          | some c =>
              ((match options.checkboxPrefixFn with
                | some f => f c
                | none => "• ") ++ text)
                :: parseListItems ordered options index rest
          | none =>
              ("• " ++ text) :: parseListItems ordered options index rest
    | some first =>
        ((Token.textField first).getD "")
          :: parseListItems ordered options index rest
    | none => "" :: parseListItems ordered options index rest

/-- Embeds `parseList`: one section whose text is the newline-joined item lines. -/
def parseList (ordered : Bool) (items : List ListItem)
    (options : ListOptions) : KnownBlock :=
  mkSection (String.intercalate "\n" (parseListItems ordered options 0 items))

/-- The element-collecting loop of `parseTableCellToRichText`: each cell
child contributes zero or one run (the switch has no default case, so
unlisted kinds fall through and contribute nothing). -/
def cellElements : List Token → List RichTextElem
  | [] => []
  | t :: ts =>
    (match t with
     | .text _ txt _ => [.text txt none]
     | .strong _ tokens =>
         [.text (String.join (plainTextList tokens))
           (some ⟨true, false, false, false⟩)]
     | .em _ tokens =>
         [.text (String.join (plainTextList tokens))
           (some ⟨false, true, false, false⟩)]
     | .del _ tokens =>
         [.text (String.join (plainTextList tokens))
           (some ⟨false, false, true, false⟩)]
     | .codespan _ txt => [.text txt (some ⟨false, false, false, true⟩)]
     | .link href _ tokens =>
         [.link (strOr (String.join (plainTextList tokens)) href) href]
     | .image href _ title => [.text (strOr (title.getD "") href) none]
     | .br _ => []
     | .html _ _ _ => []
     | _ => []) ++ cellElements ts

/-- Embeds `parseTableCellToRichText`: collapse the collected runs — zero runs to
`RawText ""`, one unstyled non-link text run to `RawText` of its text, and
anything else to a `rich_text` block wrapping one `rich_text_section`. -/
def parseTableCellToRichText (cellTokens : List Token) : CellResult :=
  match cellElements cellTokens with
  | [] => .rawText ""
  | [RichTextElem.text txt none] => .rawText txt
  | elements => .richText [elements]

/-- Embeds `parseTable`: header row plus body rows, each cell converted
independently, handed to the capping `table` constructor. -/
def parseTable (header : List (List Token))
    (rows : List (List (List Token))) : KnownBlock :=
  mkTable ((header :: rows).map
    (fun row => row.map (fun cell => parseTableCellToRichText cell)))

/-- Embeds `parseBlockquote`: only paragraph children are converted (the type
guard filters the rest away); every resulting multi-line section is
rewritten to `'> ' + text.replace(/\n/g, '\n> ')`. -/
def parseBlockquote (tokens : List Token) : List KnownBlock :=
  tokens.flatMap (fun child =>
    match child with
    | .paragraph ts =>
        (parseParagraph ts).map (fun block =>
          match block with
          | .sectionBlock t =>
              if strHasNl t.text then
                .sectionBlock ⟨t.type, "> " ++ replaceNl t.text⟩
              else .sectionBlock t
          | b => b)
    | _ => [])

/-- Embeds `parseThematicBreak`. -/
def parseThematicBreak : KnownBlock := mkDivider

/-- Embeds `parseHTML`: over the external XML parse result, each recognized
`<img>` becomes an image block with alt text `img['@_alt'] || url`; any
other content yields no blocks. -/
def parseHTML (imgResult : Option ImgParse) : List KnownBlock :=
  match imgResult with
  | none => []
  | some res =>
    let tags := match res with
      | .single img => [img]
      | .multiple imgs => imgs
    tags.map (fun img => mkImage img.src (strOr (img.alt.getD "") img.src) none)

/-- Embeds `parseToken`: the top-level per-kind dispatch; unrecognized kinds are
the default switch branch and produce no blocks. -/
def parseToken (token : Token) (options : ParsingOptions) :
    List KnownBlock :=
  match token with
  | .heading _ tokens => [parseHeading tokens]
  | .paragraph tokens => parseParagraph tokens
  | .code text => [parseCode text]
  | .blockquote _ tokens => parseBlockquote tokens
  | .list ordered items => [parseList ordered items options.lists]
  | .table header rows => [parseTable header rows]
  | .hr => [parseThematicBreak]
  | .html _ _ imgResult => parseHTML imgResult
  | _ => []

/-- Embeds `parseBlocks`: concatenate the per-token results in document order. -/
def parseBlocks (tokens : List Token) (options : ParsingOptions) :
    List KnownBlock :=
  tokens.flatMap (fun token => parseToken token options)

/-! ## Claim-side definitions and theorems -/

/-- The top-level token kinds with a dedicated handler in `parseToken`. -/
def handledKinds : List String :=
  ["heading", "paragraph", "code", "blockquote", "list", "table", "hr", "html"]

/-- C9: a top-level token of any kind other than heading, paragraph, code,
blockquote, list, table, thematic break (`hr`) or raw HTML produces no
blocks, and an input made only of such tokens yields the empty sequence
(the conversion is a total function, so no exception can be raised). -/
theorem unsupportedTokensSkipped :
    (∀ (t : Token) (options : ParsingOptions),
      t.kind ∉ handledKinds → parseToken t options = []) ∧
    (∀ (tokens : List Token) (options : ParsingOptions),
      (∀ t ∈ tokens, t.kind ∉ handledKinds) →
      parseBlocks tokens options = []) := by
  constructor
  · intro t options h
    cases t <;> first
      | rfl
      | exact absurd (by simp [Token.kind, handledKinds]) h
  · intro tokens options h
    induction tokens with
    | nil => rfl
    | cons t ts ih =>
      have ht : parseToken t options = [] := by
        cases t <;> first
          | rfl
          | exact absurd (by simp [Token.kind, handledKinds])
              (h _ (List.mem_cons_self _ _))
      calc parseBlocks (t :: ts) options
          = parseToken t options ++ parseBlocks ts options := rfl
        _ = [] := by
            rw [ht, ih (fun x hx => h x (List.mem_cons_of_mem _ hx))]
            rfl

/-- Witness for C9 at a concrete input made of unsupported tokens. -/
theorem unsupportedTokensSkippedWitness :
    parseBlocks [Token.space, Token.em "x" [], Token.other "custom" none]
      defaultOptions = [] :=
  unsupportedTokensSkipped.2 _ _ (by decide)

/-- C2 (divergence witness): for the token tree of the paragraph
`"(-26°C)**Conditions:** Light"`, the code emits one section whose text is
`"(-26°C)*Conditions:* Light"` — no space is inserted before the bold run.
The spacing-repair post-pass the spec (and the repository's own test
"should add space before bold when preceded by closing paren") describes
does not exist in `parseParagraph`/`parseMrkdwn`. -/
theorem spacingRepairAbsent :
    parseBlocks [Token.paragraph [Token.text "(-26°C)" "(-26°C)" none,
        Token.strong "Conditions:" [Token.text "Conditions:" "Conditions:" none],
        Token.text " Light" " Light" none]] defaultOptions
      = [KnownBlock.sectionBlock ⟨"mrkdwn", "(-26°C)*Conditions:* Light"⟩] ∧
    "(-26°C)*Conditions:* Light" ≠ "(-26°C) *Conditions:* Light" :=
  ⟨by decide, by decide⟩

/-- C3: for the token tree of the paragraph
`"**a ~b~** c[*d*](https://example.com)"`, `parseBlocks` returns exactly
one section with text `"*a ~b~* c<https://example.com|_d_> "`: strong
wraps in `*...*`, strikethrough in `~...~`, emphasis in `_..._`, a link
renders as `<url|rendered>` followed by a trailing space, concatenated
depth-first left-to-right. -/
theorem inlineMarkupExample :
    parseBlocks [Token.paragraph [
        Token.strong "a ~b~"
          [Token.text "a " "a " none, Token.del "b" [Token.text "b" "b" none]],
        Token.text " c" " c" none,
        Token.link "https://example.com" "d"
          [Token.em "d" [Token.text "d" "d" none]]]] defaultOptions
      = [KnownBlock.sectionBlock
          ⟨"mrkdwn", "*a ~b~* c<https://example.com|_d_> "⟩] := by
  decide

/-- Embeds `child.type === 'paragraph'` (the blockquote type guard). -/
def isParagraphTok (t : Token) : Bool :=
  match t with
  | .paragraph _ => true
  | _ => false

/-- The child tokens of a paragraph token. -/
def paragraphChildTokens (t : Token) : List Token :=
  match t with
  | .paragraph ts => ts
  | _ => []

/-- The blockquote rewrite of C7, per the claim's words: a section whose
text contains a newline is prefixed with `"> "` and every newline becomes
`"\n> "`; a section without a newline, and every non-section block, is
returned unchanged. -/
def quoteRewrite (b : KnownBlock) : KnownBlock :=
  match b with
  | .sectionBlock t =>
      if strHasNl t.text then .sectionBlock ⟨t.type, "> " ++ replaceNl t.text⟩
      else .sectionBlock t
  | b => b

/-- C7: a blockquote converts only its paragraph children (children of any
other kind yield no blocks), and each resulting block is passed through
`quoteRewrite`, which rewrites exactly the sections containing a
newline. -/
theorem blockquoteParagraphsOnly :
    ∀ (btext : String) (children : List Token) (options : ParsingOptions),
    parseToken (.blockquote btext children) options
      = (children.filter (fun c => isParagraphTok c)).flatMap
          (fun c => (parseParagraph (paragraphChildTokens c)).map quoteRewrite) := by
  intro btext children options
  have hfun : (fun block => match block with
      | KnownBlock.sectionBlock t =>
          if strHasNl t.text then
            KnownBlock.sectionBlock ⟨t.type, "> " ++ replaceNl t.text⟩
          else KnownBlock.sectionBlock t
      | b => b) = quoteRewrite := by
    funext b
    cases b <;> rfl
  show parseBlockquote children = _
  induction children with
  | nil => rfl
  | cons c cs ih =>
    have hcons : parseBlockquote (c :: cs)
        = parseBlockquote [c] ++ parseBlockquote cs := by
      simp [parseBlockquote]
    rw [hcons, ih, List.filter_cons]
    cases c <;>
      simp [parseBlockquote, isParagraphTok, paragraphChildTokens, hfun]

/-- The run a single table-cell child contributes, per C8's per-child-kind
mapping: text → plain run; strong/emphasis/strikethrough → one run holding
the flattened plain-text content with only the bold/italic/strike flag;
code-span → a run with the code flag; link → a hyperlink run whose text
defaults to the url when the flattened text is empty; image → a plain run
with title-or-url; line-break and raw HTML (and anything else) →
nothing. -/
def specCellRun (t : Token) : List RichTextElem :=
  match t with
  | .text _ txt _ => [.text txt none]
  | .strong _ tokens =>
      [.text (String.join (plainTextList tokens)) (some ⟨true, false, false, false⟩)]
  | .em _ tokens =>
      [.text (String.join (plainTextList tokens)) (some ⟨false, true, false, false⟩)]
  | .del _ tokens =>
      [.text (String.join (plainTextList tokens)) (some ⟨false, false, true, false⟩)]
  | .codespan _ txt => [.text txt (some ⟨false, false, false, true⟩)]
  | .link href _ tokens =>
      [.link (strOr (String.join (plainTextList tokens)) href) href]
  | .image href _ title => [.text (strOr (title.getD "") href) none]
  | _ => []

/-- C8's collapsing rule: zero runs → `RawText ""`; exactly one unstyled
non-link text run → `RawText` of its text; anything else → a rich-text
node wrapping the full run sequence. -/
def specCollapse (runs : List RichTextElem) : CellResult :=
  match runs with
  | [] => .rawText ""
  | [RichTextElem.text txt none] => .rawText txt
  | runs => .richText [runs]

/-- The cell loop pushes, for each child in order, exactly the runs of
`specCellRun`. -/
theorem cellElements_eq_flatMap (cellTokens : List Token) :
    cellElements cellTokens = cellTokens.flatMap specCellRun := by
  induction cellTokens with
  | nil => rfl
  | cons t ts ih =>
    cases t <;> simp [cellElements, specCellRun, List.flatMap_cons, ih]

/-- C8: the table cell renderer maps each child by kind and collapses the
resulting run sequence exactly as the claim states. -/
theorem tableCellCollapse :
    ∀ cellTokens : List Token,
    parseTableCellToRichText cellTokens
      = specCollapse (cellTokens.flatMap specCellRun) := by
  intro cellTokens
  rw [parseTableCellToRichText, cellElements_eq_flatMap]
  rfl

/-- C5: a table token produces exactly one table block whose rows are the
header row followed by the body rows in order, each cell converted
independently by `parseTableCellToRichText`, the row sequence truncated to
the first `MAX_TABLE_ROWS` rows and every row truncated to its first
`MAX_TABLE_COLUMNS` cells; only trailing rows/cells are dropped — every
cell still present equals the corresponding cell of the untruncated
conversion. -/
theorem tableTruncation :
    ∀ (header : List (List Token)) (rows : List (List (List Token)))
      (options : ParsingOptions),
    parseToken (.table header rows) options
      = [KnownBlock.tableBlock
          ((((header :: rows).map
              (fun row => row.map (fun cell => parseTableCellToRichText cell))).take
                MAX_TABLE_ROWS).map
            (fun row => row.take MAX_TABLE_COLUMNS))] ∧
    (∀ emitted : List (List CellResult),
      emitted = (((header :: rows).map
          (fun row => row.map (fun cell => parseTableCellToRichText cell))).take
            MAX_TABLE_ROWS).map (fun row => row.take MAX_TABLE_COLUMNS) →
      emitted.length ≤ MAX_TABLE_ROWS ∧
      (∀ r ∈ emitted, r.length ≤ MAX_TABLE_COLUMNS) ∧
      (∀ (i j : Nat) (cell : CellResult),
        (emitted[i]?.bind (fun r => r[j]?)) = some cell →
        (((header :: rows).map
            (fun row => row.map (fun cell => parseTableCellToRichText cell)))[i]?.bind
          (fun r => r[j]?)) = some cell)) := by
  intro header rows options
  refine ⟨rfl, ?_⟩
  intro emitted hemit
  subst hemit
  refine ⟨?_, ?_, ?_⟩
  · rw [List.length_map, List.length_take]
    exact min_le_left _ _
  · intro r hr
    obtain ⟨r', _, rfl⟩ := List.mem_map.mp hr
    rw [List.length_take]
    exact min_le_left _ _
  · intro i j cell h
    rw [List.getElem?_map, List.getElem?_take] at h
    by_cases hi : i < MAX_TABLE_ROWS
    · rw [if_pos hi] at h
      cases hrow : ((header :: rows).map
          (fun row => row.map (fun cell => parseTableCellToRichText cell)))[i]? with
      | none => rw [hrow] at h; simp at h
      | some r =>
        rw [hrow] at h
        simp only [Option.map_some', Option.some_bind] at h
        rw [List.getElem?_take] at h
        by_cases hj : j < MAX_TABLE_COLUMNS
        · rw [if_pos hj] at h
          simp [hrow, h]
        · rw [if_neg hj] at h
          exact absurd h (by simp)
    · rw [if_neg hi] at h
      simp at h

/-- Witness for C5 at a concrete one-cell table. -/
theorem tableTruncationWitness :
    parseToken (.table [[Token.text "h" "h" none]] []) defaultOptions
      = [KnownBlock.tableBlock [[CellResult.rawText "h"]]] := by
  have h := (tableTruncation [[Token.text "h" "h" none]] [] defaultOptions).1
  rw [h]
  decide

/-- A list item is well-formed when its first child token exists, is of
kind `text`, and carries a nonempty nested token list (the condition
guarding the early return in `parseList`). -/
def itemWellFormed (item : ListItem) : Bool :=
  match item.tokens.head? with
  | some (.text _ _ (some (_ :: _))) => true
  | _ => false

/-- The rendered text of a well-formed item, per C6's words: the nested
inline tokens of the first child, with image tokens excluded, rendered by
the inline markup renderer and concatenated. -/
def itemRenderedText (item : ListItem) : String :=
  match item.tokens.head? with
  | some (.text _ _ (some toks)) => mrkdwnList (nonImageTokens toks)
  | _ => ""

/-- Embeds `paragraph?.text || ''`: the first child's text field verbatim, the
empty string when the child is missing or has no text field. -/
def itemFallbackText (item : ListItem) : String :=
  (item.tokens.head?.bind Token.textField).getD ""

/-- Embeds `options.checkboxPrefix?.(checked) ?? '• '`. -/
def checkboxText (options : ListOptions) (checked : Bool) : String :=
  match options.checkboxPrefixFn with
  | some f => f checked
  | none => "• "

/-- The number of well-formed items in a list (the value of the mutable
`index` counter after processing them, for an ordered list). -/
def wfCount (items : List ListItem) : Nat :=
  (items.filter (fun it => itemWellFormed it)).length

/-- Closed form of the line `parseList` emits for the item at position `p`
when the index counter starts at `start`: a malformed item contributes its
fallback text with no bullet, checkbox prefix or ordered index; a
well-formed item of an ordered list is numbered `start` plus the count of
well-formed items up to and including it (so malformed items do not
advance the numbering); a well-formed checklist item gets the checkbox
prefix and any other well-formed item the `"• "` bullet. -/
def closedLineFrom (ordered : Bool) (options : ListOptions) (start : Nat)
    (items : List ListItem) (p : Nat) : String :=
  match items[p]? with
  | none => ""
  | some item =>
    if itemWellFormed item then
      if ordered then
        toString (start + wfCount (items.take (p + 1))) ++ ". "
          ++ itemRenderedText item
      else
        match item.checked with
        | some c => checkboxText options c ++ itemRenderedText item
        | none => "• " ++ itemRenderedText item
    else itemFallbackText item


theorem wfCount_single (item : ListItem) :
    wfCount [item] = if itemWellFormed item then 1 else 0 := by
  rw [wfCount, List.filter_cons]
  cases h : itemWellFormed item <;> simp

theorem wfCount_cons (item : ListItem) (rest : List ListItem) :
    wfCount (item :: rest) = wfCount [item] + wfCount rest := by
  rw [wfCount, List.filter_cons, wfCount_single, wfCount]
  cases h : itemWellFormed item <;> simp [Nat.add_comm]

/-- One step of the item loop, phrased through the claim-side helpers. -/
theorem parseListItems_cons (ordered : Bool) (options : ListOptions)
    (start : Nat) (item : ListItem) (rest : List ListItem) :
    parseListItems ordered options start (item :: rest)
      = if itemWellFormed item then
          (if ordered then
            (toString (start + 1) ++ ". " ++ itemRenderedText item)
              :: parseListItems ordered options (start + 1) rest
          else
            match item.checked with
            | some c =>
                (checkboxText options c ++ itemRenderedText item)
                  :: parseListItems ordered options start rest
            | none =>
                ("• " ++ itemRenderedText item)
                  :: parseListItems ordered options start rest)
        else itemFallbackText item :: parseListItems ordered options start rest := by
  cases item with
  | mk toks checked =>
    cases toks with
    | nil =>
      simp [parseListItems, itemWellFormed, itemFallbackText, ListItem.tokens]
    | cons first ts =>
      cases first
      case text raw txt sub =>
        cases sub with
        | none =>
          simp [parseListItems, itemWellFormed, itemFallbackText,
            ListItem.tokens, Token.textField]
        | some subToks =>
          cases subToks with
          | nil =>
            simp [parseListItems, itemWellFormed, itemFallbackText,
              ListItem.tokens, Token.textField]
          | cons tk tks =>
            simp [parseListItems, itemWellFormed, itemRenderedText,
              checkboxText, ListItem.tokens, ListItem.checked]
      all_goals
        simp [parseListItems, itemWellFormed, itemFallbackText,
          ListItem.tokens, Token.textField]

theorem closedLineFrom_shift (ordered : Bool) (options : ListOptions)
    (start : Nat) (item : ListItem) (rest : List ListItem) (p : Nat) :
    closedLineFrom ordered options start (item :: rest) (p + 1)
      = closedLineFrom ordered options (start + wfCount [item]) rest p := by
  rw [closedLineFrom, closedLineFrom, List.getElem?_cons_succ]
  cases h : rest[p]? with
  | none => rfl
  | some it =>
    simp only []
    by_cases hwf : itemWellFormed it
    · rw [if_pos hwf, if_pos hwf]
      cases ordered with
      | false => rfl
      | true =>
        rw [if_pos rfl, if_pos rfl, List.take_succ_cons, wfCount_cons,
          ← Nat.add_assoc]
    · rw [if_neg hwf, if_neg hwf]

theorem closedLineFrom_unordered_start (options : ListOptions)
    (start start' : Nat) (items : List ListItem) (p : Nat) :
    closedLineFrom false options start items p
      = closedLineFrom false options start' items p := by
  rw [closedLineFrom, closedLineFrom]
  cases items[p]? with
  | none => rfl
  | some item =>
    simp only []
    by_cases hwf : itemWellFormed item
    · rw [if_pos hwf, if_pos hwf]
      simp
    · rw [if_neg hwf, if_neg hwf]

/-- The item-mapping loop of `parseList` equals its closed form. -/
theorem parseListItems_closedForm (ordered : Bool) (options : ListOptions) :
    ∀ (items : List ListItem) (start : Nat),
    parseListItems ordered options start items
      = (List.range items.length).map
          (closedLineFrom ordered options start items) := by
  intro items
  induction items with
  | nil => intro start; rfl
  | cons item rest ih =>
    intro start
    have hhead : closedLineFrom ordered options start (item :: rest) 0
        = if itemWellFormed item then
            (if ordered then
              toString (start + wfCount [item]) ++ ". " ++ itemRenderedText item
            else
              match item.checked with
              | some c => checkboxText options c ++ itemRenderedText item
              | none => "• " ++ itemRenderedText item)
          else itemFallbackText item := by
      rw [closedLineFrom]
      simp only [List.getElem?_cons_zero]
      by_cases hwf : itemWellFormed item
      · rw [if_pos hwf, if_pos hwf]
        cases ordered with
        | false => rfl
        | true =>
          rw [if_pos rfl, if_pos rfl]
          have : (item :: rest).take (0 + 1) = [item] := rfl
          rw [this]
      · rw [if_neg hwf, if_neg hwf]
    have hcomp : ((closedLineFrom ordered options start (item :: rest)) ∘ Nat.succ)
        = closedLineFrom ordered options (start + wfCount [item]) rest := by
      funext p
      exact closedLineFrom_shift ordered options start item rest p
    rw [List.length_cons, List.range_succ_eq_map, List.map_cons, List.map_map,
      hcomp, hhead, parseListItems_cons]
    by_cases hwf : itemWellFormed item
    · rw [if_pos hwf, if_pos hwf, wfCount_single, if_pos hwf]
      cases ordered with
      | true =>
        rw [if_pos rfl, if_pos rfl, ih (start + 1)]
      | false =>
        rw [if_neg (by simp), if_neg (by simp)]
        have htail : parseListItems false options start rest
            = (List.range rest.length).map
                (closedLineFrom false options (start + 1) rest) := by
          rw [ih start]
          apply List.map_congr_left
          intro p _
          exact closedLineFrom_unordered_start options start (start + 1) rest p
        cases item.checked with
        | some c => rw [htail]
        | none => rw [htail]
    · rw [if_neg hwf, if_neg hwf, wfCount_single, if_neg hwf, Nat.add_zero,
        ih start]

/-- C10: for every list, `parseList` emits one section whose `p`-th line is
the closed-form line: a malformed item (first child missing, not of kind
`text`, or with no nested inline tokens) contributes its first child's text
verbatim (`""` when missing) with no bullet, checkbox prefix or ordered
index, and does not advance the ordered index — the index shown on a
well-formed ordered item is the count of well-formed items up to it, so the
next well-formed item after a malformed one receives the next consecutive
number. -/
theorem listMalformedItems :
    ∀ (ordered : Bool) (items : List ListItem) (options : ListOptions),
    parseToken (.list ordered items) ⟨options⟩
      = [mkSection (String.intercalate "\n"
          ((List.range items.length).map
            (closedLineFrom ordered options 0 items)))] ∧
    (∀ (p : Nat) (item : ListItem), items[p]? = some item →
      itemWellFormed item = false →
      closedLineFrom ordered options 0 items p = itemFallbackText item) := by
  intro ordered items options
  constructor
  · show [parseList ordered items options] = _
    rw [parseList, parseListItems_closedForm]
  · intro p item hp hwf
    rw [closedLineFrom, hp]
    simp only []
    rw [if_neg (by simp [hwf])]

/-- List items for the C10 witness: a well-formed item, a malformed one
(no child tokens), and another well-formed item. -/
def mixedItemsExample : List ListItem :=
  [⟨[.text "a" "a" (some [.text "a" "a" none])], none⟩,
   ⟨[], none⟩,
   ⟨[.text "b" "b" (some [.text "b" "b" none])], none⟩]

/-- Witness for C10: the malformed middle item's line is its fallback
text. -/
theorem listMalformedItemsWitness :
    closedLineFrom true defaultListOptions 0 mixedItemsExample 1
      = itemFallbackText ⟨[], none⟩ :=
  (listMalformedItems true mixedItemsExample defaultListOptions).2 1
    ⟨[], none⟩ rfl rfl

/-- The line C6 predicts for the item at position `p` of a list whose items
are all well-formed: ordered items are numbered by their 1-based position,
checklist items get the caller-supplied checkbox prefix (default `"• "`),
and all other items the `"• "` bullet; the rendered text excludes nested
image tokens. -/
def specLineAllWf (ordered : Bool) (options : ListOptions)
    (items : List ListItem) (p : Nat) : String :=
  match items[p]? with
  | none => ""
  | some item =>
    if ordered then toString (p + 1) ++ ". " ++ itemRenderedText item
    else
      match item.checked with
      | some c => checkboxText options c ++ itemRenderedText item
      | none => "• " ++ itemRenderedText item

/-- C6: for a list all of whose items are well-formed, `parseList` emits
exactly one section whose text is the newline-joined item lines of
`specLineAllWf` — ordered items numbered 1-based in order, checklist items
prefixed by the checkbox-prefix function, other items bulleted, image
tokens excluded from the rendered text, and no separate image blocks. -/
theorem listRendering :
    ∀ (ordered : Bool) (items : List ListItem) (options : ListOptions),
    (∀ item ∈ items, itemWellFormed item = true) →
    parseToken (.list ordered items) ⟨options⟩
      = [mkSection (String.intercalate "\n"
          ((List.range items.length).map
            (specLineAllWf ordered options items)))] := by
  intro ordered items options hwf
  have key : ∀ p, p < items.length →
      closedLineFrom ordered options 0 items p
        = specLineAllWf ordered options items p := by
    intro p hp
    rw [closedLineFrom, specLineAllWf, List.getElem?_eq_getElem hp]
    simp only []
    have hitem : itemWellFormed items[p] = true :=
      hwf _ (items.getElem_mem hp)
    rw [if_pos hitem]
    cases ordered with
    | true =>
      rw [if_pos rfl, if_pos rfl]
      have hcount : wfCount (items.take (p + 1)) = p + 1 := by
        rw [wfCount, List.filter_eq_self.mpr, List.length_take]
        · exact Nat.min_eq_left (Nat.succ_le_of_lt hp)
        · intro a ha
          exact hwf a (List.take_subset _ _ ha)
      rw [hcount, Nat.zero_add]
    | false =>
      rw [if_neg (by simp), if_neg (by simp)]
  show [parseList ordered items options] = _
  rw [parseList, parseListItems_closedForm]
  have hmap : (List.range items.length).map
        (closedLineFrom ordered options 0 items)
      = (List.range items.length).map (specLineAllWf ordered options items) :=
    List.map_congr_left (fun p hp => key p (List.mem_range.mp hp))
  rw [hmap]

/-- List items for the C6 witness: two well-formed ordered items. -/
def wfItemsExample : List ListItem :=
  [⟨[.text "a" "a" (some [.text "a" "a" none])], none⟩,
   ⟨[.text "b" "b" (some [.text "b" "b" none])], none⟩]

/-- Witness for C6 at a concrete two-item ordered list. -/
theorem listRenderingWitness :
    parseToken (.list true wfItemsExample) ⟨defaultListOptions⟩
      = [mkSection (String.intercalate "\n"
          ((List.range wfItemsExample.length).map
            (specLineAllWf true defaultListOptions wfItemsExample)))] :=
  listRendering true wfItemsExample defaultListOptions (by decide)

/-- Embeds `child.type !== 'image'`. -/
def notImageTok (t : Token) : Bool :=
  match t with
  | .image .. => false
  | _ => true

/-- The image block C4 says an image child appends: url from the token's
`href`, alt text defaulting to the image's text, then title, then url, and
the optional title. -/
def specImageBlock (href text : String) (title : Option String) : KnownBlock :=
  mkImage href (strOr text (strOr (title.getD "") href)) title

/-- The section C4 says a maximal run of non-image children produces: a
fresh section built from the first child's rendering (capped by the section
constructor), with the renderings of the remaining children of the run
appended. -/
def specRunSection (first : Token) (rest : List Token) : KnownBlock :=
  match mkSection (parseMrkdwn first) with
  | .sectionBlock t => .sectionBlock ⟨t.type, t.text ++ mrkdwnList rest⟩
  | b => b

/-- The block list C4 predicts for a paragraph's children: maximal runs of
consecutive non-image children collapse to single sections, an image child
emits its own image block, and accumulation after an image resumes in a
fresh section. -/
def paragraphGroups : List Token → List KnownBlock
  | [] => []
  | t :: ts =>
    match t with
    | .image href text title =>
        specImageBlock href text title :: paragraphGroups ts
    | _ =>
        specRunSection t (ts.takeWhile (fun x => notImageTok x))
          :: paragraphGroups (ts.dropWhile (fun x => notImageTok x))
termination_by l => l.length
decreasing_by
  all_goals simp only [List.length_cons]
  · omega
  · exact Nat.lt_succ_of_le ((List.dropWhile_sublist _).length_le)

theorem addMrkdwn_ne_nil (content : String) (accumulator : List KnownBlock) :
    addMrkdwn content accumulator ≠ [] := by
  rw [addMrkdwn]
  cases h : accumulator.getLast? with
  | none => simp
  | some b => cases b <;> simp

theorem parsePhrasingContent_ne_nil (element : Token)
    (accumulator : List KnownBlock) :
    parsePhrasingContent element accumulator ≠ [] := by
  cases element <;>
    first
      | exact addMrkdwn_ne_nil _ _
      | simp [parsePhrasingContent]

theorem addMrkdwn_append (content : String) (acc l : List KnownBlock)
    (hl : l ≠ []) :
    addMrkdwn content (acc ++ l) = acc ++ addMrkdwn content l := by
  rw [addMrkdwn, addMrkdwn, List.getLast?_append]
  obtain ⟨x, hx⟩ := Option.isSome_iff_exists.mp (List.getLast?_isSome.mpr hl)
  rw [hx]
  have hor : (some x).or acc.getLast? = some x := rfl
  rw [hor]
  cases x with
  | sectionBlock t =>
    dsimp only
    rw [List.dropLast_append, if_neg (by simp [hl]), List.append_assoc]
  | dividerBlock => dsimp only; rw [List.append_assoc]
  | headerBlock t => dsimp only; rw [List.append_assoc]
  | imageBlock u a ti => dsimp only; rw [List.append_assoc]
  | tableBlock rows => dsimp only; rw [List.append_assoc]

theorem foldl_ppc_append :
    ∀ (toks : List Token) (acc l : List KnownBlock), l ≠ [] →
    List.foldl (fun accumulator child => parsePhrasingContent child accumulator)
        (acc ++ l) toks
      = acc ++ List.foldl
          (fun accumulator child => parsePhrasingContent child accumulator)
          l toks := by
  intro toks
  induction toks with
  | nil => intro acc l hl; rfl
  | cons t ts ih =>
    intro acc l hl
    rw [List.foldl_cons, List.foldl_cons]
    have h1 : parsePhrasingContent t (acc ++ l)
        = acc ++ parsePhrasingContent t l := by
      cases t <;>
        first
          | exact addMrkdwn_append _ acc l hl
          | simp [parsePhrasingContent, List.append_assoc]
    rw [h1]
    exact ih acc (parsePhrasingContent t l) (parsePhrasingContent_ne_nil t l)

/-- The image block an image token contributes (dummy divider on
non-image tokens, never used there). -/
def imageBlockOf (t : Token) : KnownBlock :=
  match t with
  | .image href text title => specImageBlock href text title
  | _ => mkDivider

theorem isSectionBlock_imageBlockOf (t : Token) :
    isSectionBlock (imageBlockOf t) = false := by
  cases t <;> rfl

/-- Embeds `parsePhrasingContent` in step form: non-image tokens go through
`addMrkdwn`, an image token pushes its image block. -/
theorem ppc_step (t : Token) (acc : List KnownBlock) :
    parsePhrasingContent t acc
      = if notImageTok t then addMrkdwn (parseMrkdwn t) acc
        else acc ++ [imageBlockOf t] := by
  cases t <;> rfl

theorem addMrkdwn_nil (content : String) :
    addMrkdwn content [] = [mkSection content] := rfl

theorem addMrkdwn_section_single (content : String) (t : TextObj) :
    addMrkdwn content [KnownBlock.sectionBlock t]
      = [KnownBlock.sectionBlock ⟨t.type, t.text ++ content⟩] := rfl

theorem mrkdwnList_cons (t : Token) (ts : List Token) :
    mrkdwnList (t :: ts) = parseMrkdwn t ++ mrkdwnList ts := rfl

theorem addMrkdwn_push (content : String) (acc : List KnownBlock)
    (b : KnownBlock) (hb : isSectionBlock b = false) :
    addMrkdwn content (acc ++ [b]) = (acc ++ [b]) ++ [mkSection content] := by
  rw [addMrkdwn, List.getLast?_append]
  have h1 : [b].getLast? = some b := rfl
  rw [h1]
  have hor : (some b).or acc.getLast? = some b := rfl
  rw [hor]
  cases b with
  | sectionBlock t => simp [isSectionBlock] at hb
  | dividerBlock => rfl
  | headerBlock t => rfl
  | imageBlock u a ti => rfl
  | tableBlock rows => rfl

theorem foldl_ppc_nonsection :
    ∀ (toks : List Token) (acc : List KnownBlock) (b : KnownBlock),
    isSectionBlock b = false →
    List.foldl (fun accumulator child => parsePhrasingContent child accumulator)
        (acc ++ [b]) toks
      = acc ++ [b]
          ++ List.foldl
              (fun accumulator child => parsePhrasingContent child accumulator)
              [] toks := by
  intro toks
  induction toks with
  | nil => intro acc b hb; simp
  | cons t ts ih =>
    intro acc b hb
    rw [List.foldl_cons, List.foldl_cons, ppc_step t (acc ++ [b]), ppc_step t []]
    cases ht : notImageTok t with
    | true =>
      rw [if_pos rfl, if_pos rfl]
      rw [addMrkdwn_push _ _ _ hb, addMrkdwn_nil]
      rw [foldl_ppc_append ts (acc ++ [b]) [mkSection (parseMrkdwn t)] (by simp)]
    | false =>
      rw [if_neg (by simp), if_neg (by simp)]
      rw [ih (acc ++ [b]) (imageBlockOf t) (isSectionBlock_imageBlockOf t)]
      rw [ih [] (imageBlockOf t) (isSectionBlock_imageBlockOf t)]
      simp [List.append_assoc]

theorem paragraphGroups_nil : paragraphGroups [] = [] := by
  unfold paragraphGroups
  rfl

theorem paragraphGroups_cons_image (href text : String)
    (title : Option String) (ts : List Token) :
    paragraphGroups (.image href text title :: ts)
      = specImageBlock href text title :: paragraphGroups ts := by
  conv_lhs => unfold paragraphGroups

theorem paragraphGroups_cons_run (t : Token) (ht : notImageTok t = true)
    (ts : List Token) :
    paragraphGroups (t :: ts)
      = specRunSection t (ts.takeWhile (fun x => notImageTok x))
          :: paragraphGroups (ts.dropWhile (fun x => notImageTok x)) := by
  conv_lhs => unfold paragraphGroups
  cases t <;> first | rfl | (simp [notImageTok] at ht)

theorem foldl_ppc_section :
    ∀ (ts : List Token) (ty s : String),
    List.foldl (fun accumulator child => parsePhrasingContent child accumulator)
        [KnownBlock.sectionBlock ⟨ty, s⟩] ts
      = KnownBlock.sectionBlock
            ⟨ty, s ++ mrkdwnList (ts.takeWhile (fun x => notImageTok x))⟩
          :: List.foldl
              (fun accumulator child => parsePhrasingContent child accumulator)
              [] (ts.dropWhile (fun x => notImageTok x)) := by
  intro ts
  induction ts with
  | nil =>
    intro ty s
    simp [mrkdwnList]
  | cons t ts ih =>
    intro ty s
    rw [List.foldl_cons, ppc_step t, List.takeWhile_cons, List.dropWhile_cons]
    cases ht : notImageTok t with
    | true =>
      rw [if_pos rfl]
      simp only [ht, if_true]
      rw [addMrkdwn_section_single, ih ty (s ++ parseMrkdwn t),
        mrkdwnList_cons, ← String.append_assoc]
    | false =>
      rw [if_neg (by simp)]
      simp only [ht, Bool.false_eq_true, if_false]
      have hl : [KnownBlock.sectionBlock (⟨ty, s⟩ : TextObj)]
          ++ [imageBlockOf t]
          = [KnownBlock.sectionBlock (⟨ty, s⟩ : TextObj)] ++ [imageBlockOf t] := rfl
      rw [foldl_ppc_nonsection ts [KnownBlock.sectionBlock ⟨ty, s⟩]
        (imageBlockOf t) (isSectionBlock_imageBlockOf t)]
      rw [List.foldl_cons, ppc_step t []]
      rw [if_neg (by simp [ht])]
      rw [foldl_ppc_nonsection ts [] (imageBlockOf t)
        (isSectionBlock_imageBlockOf t)]
      simp [mrkdwnList]

/-- C4: the paragraph handler iterates the inline children in order:
maximal runs of consecutive non-image children are rendered and merged
into a single section (the first chunk passing through the capping section
constructor, later chunks appended), an image child interrupts the run and
appends its own image block, and rendering after an image resumes in a
fresh section rather than the pre-image one. -/
theorem paragraphAccumulation :
    ∀ (tokens : List Token) (options : ParsingOptions),
    parseToken (.paragraph tokens) options = paragraphGroups tokens := by
  have main : ∀ (n : Nat) (toks : List Token), toks.length ≤ n →
      parseParagraph toks = paragraphGroups toks := by
    intro n
    induction n with
    | zero =>
      intro toks h
      have : toks = [] := List.eq_nil_of_length_eq_zero (Nat.le_zero.mp h)
      subst this
      rw [paragraphGroups_nil]
      rfl
    | succ n ih =>
      intro toks h
      cases toks with
      | nil => rw [paragraphGroups_nil]; rfl
      | cons t ts =>
        have hts : ts.length ≤ n := Nat.succ_le_succ_iff.mp h
        rw [parseParagraph, List.foldl_cons, ppc_step t []]
        cases ht : notImageTok t with
        | true =>
          rw [if_pos rfl, addMrkdwn_nil]
          have hsec : mkSection (parseMrkdwn t)
              = KnownBlock.sectionBlock
                  ⟨"mrkdwn", strTake (parseMrkdwn t) MAX_TEXT_LENGTH⟩ := rfl
          rw [hsec, foldl_ppc_section]
          have hdrop : (ts.dropWhile (fun x => notImageTok x)).length ≤ n :=
            le_trans ((List.dropWhile_sublist _).length_le) hts
          have htail := ih (ts.dropWhile (fun x => notImageTok x)) hdrop
          rw [parseParagraph] at htail
          rw [htail]
          rw [paragraphGroups_cons_run t ht ts]
          have hrun : specRunSection t (ts.takeWhile (fun x => notImageTok x))
              = KnownBlock.sectionBlock
                  ⟨"mrkdwn", strTake (parseMrkdwn t) MAX_TEXT_LENGTH
                    ++ mrkdwnList (ts.takeWhile (fun x => notImageTok x))⟩ := rfl
          rw [hrun]
        | false =>
          rw [if_neg (by simp)]
          rw [foldl_ppc_nonsection ts [] (imageBlockOf t)
            (isSectionBlock_imageBlockOf t)]
          have htail := ih ts hts
          rw [parseParagraph] at htail
          rw [htail]
          cases t
          case image href text title =>
            rw [paragraphGroups_cons_image]
            simp [imageBlockOf]
          all_goals simp [notImageTok] at ht
  intro tokens options
  show parseParagraph tokens = paragraphGroups tokens
  exact main tokens.length tokens (Nat.le_refl _)

/-- The per-kind size caps of C1 for the non-section block kinds (the
section cap is stated separately, at the section constructor, because
`addMrkdwn` appends to an existing section without re-truncating). -/
def blockCaps (b : KnownBlock) : Prop :=
  match b with
  | .headerBlock t => t.text.length ≤ MAX_HEADER_LENGTH
  | .imageBlock _ altText title =>
      altText.length ≤ MAX_IMAGE_ALT_TEXT_LENGTH ∧
      (match title with
       | some t => t.text.length ≤ MAX_IMAGE_TITLE_LENGTH
       | none => True)
  | .tableBlock rows =>
      rows.length ≤ MAX_TABLE_ROWS ∧ ∀ r ∈ rows, r.length ≤ MAX_TABLE_COLUMNS
  | _ => True

theorem strTake_length_le (s : String) (n : Nat) :
    (strTake s n).length ≤ n := by
  show (s.data.take n).length ≤ n
  rw [List.length_take]
  exact min_le_left _ _

theorem blockCaps_mkHeader (s : String) : blockCaps (mkHeader s) :=
  strTake_length_le s MAX_HEADER_LENGTH

theorem blockCaps_mkImage (url alt : String) (title : Option String) :
    blockCaps (mkImage url alt title) := by
  cases title with
  | none => exact ⟨strTake_length_le _ _, trivial⟩
  | some t =>
    refine ⟨strTake_length_le _ _, ?_⟩
    show (match (if t = "" then none
        else some (⟨"plain_text", strTake t MAX_IMAGE_TITLE_LENGTH⟩ : TextObj)) with
      | some t => t.text.length ≤ MAX_IMAGE_TITLE_LENGTH
      | none => True)
    by_cases h : t = ""
    · rw [if_pos h]
      trivial
    · rw [if_neg h]
      exact strTake_length_le _ _

theorem blockCaps_mkTable (rows : List (List CellResult)) :
    blockCaps (mkTable rows) := by
  constructor
  · rw [List.length_map, List.length_take]
    exact min_le_left _ _
  · intro r hr
    obtain ⟨r', _, rfl⟩ := List.mem_map.mp hr
    rw [List.length_take]
    exact min_le_left _ _

theorem blockCaps_imageBlockOf (t : Token) : blockCaps (imageBlockOf t) := by
  cases t <;> first
    | exact blockCaps_mkImage _ _ _
    | trivial

theorem addMrkdwn_caps (content : String) (acc : List KnownBlock)
    (h : ∀ b ∈ acc, blockCaps b) :
    ∀ b ∈ addMrkdwn content acc, blockCaps b := by
  rw [addMrkdwn]
  cases hx : acc.getLast? with
  | none =>
    intro b hb
    rcases List.mem_append.mp hb with h1 | h2
    · exact h b h1
    · rw [List.mem_singleton] at h2
      subst h2
      trivial
  | some x =>
    cases x with
    | sectionBlock t =>
      intro b hb
      rcases List.mem_append.mp hb with h1 | h2
      · exact h b (List.dropLast_subset acc h1)
      · rw [List.mem_singleton] at h2
        subst h2
        trivial
    | dividerBlock =>
      intro b hb
      rcases List.mem_append.mp hb with h1 | h2
      · exact h b h1
      · rw [List.mem_singleton] at h2; subst h2; trivial
    | headerBlock t =>
      intro b hb
      rcases List.mem_append.mp hb with h1 | h2
      · exact h b h1
      · rw [List.mem_singleton] at h2; subst h2; trivial
    | imageBlock u a ti =>
      intro b hb
      rcases List.mem_append.mp hb with h1 | h2
      · exact h b h1
      · rw [List.mem_singleton] at h2; subst h2; trivial
    | tableBlock rows =>
      intro b hb
      rcases List.mem_append.mp hb with h1 | h2
      · exact h b h1
      · rw [List.mem_singleton] at h2; subst h2; trivial

theorem ppc_caps (t : Token) (acc : List KnownBlock)
    (h : ∀ b ∈ acc, blockCaps b) :
    ∀ b ∈ parsePhrasingContent t acc, blockCaps b := by
  rw [ppc_step]
  by_cases ht : notImageTok t
  · rw [if_pos ht]
    exact addMrkdwn_caps _ _ h
  · rw [if_neg ht]
    intro b hb
    rcases List.mem_append.mp hb with h1 | h2
    · exact h b h1
    · rw [List.mem_singleton] at h2
      subst h2
      exact blockCaps_imageBlockOf t

theorem foldl_ppc_caps :
    ∀ (toks : List Token) (acc : List KnownBlock),
    (∀ b ∈ acc, blockCaps b) →
    ∀ b ∈ List.foldl
        (fun accumulator child => parsePhrasingContent child accumulator)
        acc toks, blockCaps b := by
  intro toks
  induction toks with
  | nil => intro acc h; exact h
  | cons t ts ih =>
    intro acc h
    rw [List.foldl_cons]
    exact ih (parsePhrasingContent t acc) (ppc_caps t acc h)

/-- C1 (amended): every emitted header, image and table block satisfies its
size caps, and the section constructor truncates to exactly the first
`MAX_TEXT_LENGTH` characters of its argument; but a section that later
chunks were appended to (paragraph accumulation, blockquote rewriting) is
not re-truncated, so an emitted section's text can exceed the cap (see the
counterexample). -/
theorem blockSizeCaps :
    (∀ (tokens : List Token) (options : ParsingOptions) (b : KnownBlock),
      b ∈ parseBlocks tokens options → blockCaps b) ∧
    (∀ s : String,
      mkSection s
        = KnownBlock.sectionBlock ⟨"mrkdwn", strTake s MAX_TEXT_LENGTH⟩ ∧
      (strTake s MAX_TEXT_LENGTH).length ≤ MAX_TEXT_LENGTH) := by
  constructor
  · intro tokens options b hb
    obtain ⟨t, hmem, hbt⟩ := List.mem_flatMap.mp hb
    clear hmem hb
    cases t
    case heading text toks =>
      rw [show parseToken (Token.heading text toks) options
          = [parseHeading toks] from rfl, List.mem_singleton] at hbt
      subst hbt
      exact blockCaps_mkHeader _
    case paragraph toks =>
      exact foldl_ppc_caps toks [] (by simp) b hbt
    case code text =>
      rw [show parseToken (Token.code text) options
          = [parseCode text] from rfl, List.mem_singleton] at hbt
      subst hbt
      trivial
    case blockquote btext toks =>
      rw [show parseToken (Token.blockquote btext toks) options
          = parseBlockquote toks from rfl, parseBlockquote] at hbt
      obtain ⟨child, hcmem, hbc⟩ := List.mem_flatMap.mp hbt
      clear hcmem hbt
      cases child
      case paragraph ts =>
        obtain ⟨b', hb', rfl⟩ := List.mem_map.mp hbc
        have hcaps := foldl_ppc_caps ts [] (by simp) b' hb'
        cases b' with
        | sectionBlock t0 =>
          dsimp only
          split <;> trivial
        | dividerBlock => exact hcaps
        | headerBlock t0 => exact hcaps
        | imageBlock u a ti => exact hcaps
        | tableBlock rows => exact hcaps
      all_goals simp at hbc
    case list ordered items =>
      rw [show parseToken (Token.list ordered items) options
          = [parseList ordered items options.lists] from rfl,
        List.mem_singleton] at hbt
      subst hbt
      trivial
    case table header rows =>
      rw [show parseToken (Token.table header rows) options
          = [parseTable header rows] from rfl, List.mem_singleton] at hbt
      subst hbt
      exact blockCaps_mkTable _
    case hr =>
      rw [show parseToken Token.hr options = [parseThematicBreak] from rfl,
        List.mem_singleton] at hbt
      subst hbt
      trivial
    case html raw text imgResult =>
      rw [show parseToken (Token.html raw text imgResult) options
          = parseHTML imgResult from rfl] at hbt
      cases imgResult with
      | none => simp [parseHTML] at hbt
      | some res =>
        obtain ⟨img, _, rfl⟩ := List.mem_map.mp (by simpa [parseHTML] using hbt)
        exact blockCaps_mkImage _ _ _
    all_goals simp [parseToken] at hbt
  · intro s
    exact ⟨rfl, strTake_length_le s MAX_TEXT_LENGTH⟩

/-- Witness for C1's amended statement at a concrete heading. -/
theorem blockSizeCapsWitness :
    blockCaps (KnownBlock.headerBlock ⟨"plain_text", "a"⟩) :=
  blockSizeCaps.1 [Token.heading "a" [Token.text "a" "a" none]] defaultOptions
    (KnownBlock.headerBlock ⟨"plain_text", "a"⟩) (by decide)

/-- A 3000-character string. -/
def longA : String := ⟨List.replicate 3000 'a'⟩

/-- Counterexample to C1 as stated: a paragraph with two inline text
children whose renderings total 3001 characters yields a single section of
3001 characters — `addMrkdwn` appends the second chunk to the already
capped section without re-truncating, so the emitted block violates the
3000-character cap and does not equal the first 3000 characters of the
rendering. -/
theorem blockSizeCapsCounterexample :
    parseBlocks
        [Token.paragraph [Token.text longA longA none, Token.text "b" "b" none]]
        defaultOptions
      = [KnownBlock.sectionBlock ⟨"mrkdwn", longA ++ "b"⟩] ∧
    MAX_TEXT_LENGTH < (longA ++ "b").length := by
  constructor
  · have h0 : parseBlocks
        [Token.paragraph [Token.text longA longA none, Token.text "b" "b" none]]
        defaultOptions
        = parseParagraph [Token.text longA longA none, Token.text "b" "b" none] := by
      simp [parseBlocks, parseToken]
    have hlongA : mkSection (parseMrkdwn (Token.text longA longA none))
        = KnownBlock.sectionBlock ⟨"mrkdwn", longA⟩ := by
      have ht : strTake longA MAX_TEXT_LENGTH = longA := by
        show (⟨(List.replicate 3000 'a').take 3000⟩ : String) = _
        rw [List.take_replicate, min_self]
        rfl
      show KnownBlock.sectionBlock ⟨"mrkdwn", strTake longA MAX_TEXT_LENGTH⟩ = _
      rw [ht]
    have e1 : parsePhrasingContent (Token.text longA longA none) []
        = [KnownBlock.sectionBlock ⟨"mrkdwn", longA⟩] := by
      show addMrkdwn (parseMrkdwn (Token.text longA longA none)) [] = _
      rw [addMrkdwn_nil, hlongA]
    have e2 : parsePhrasingContent (Token.text "b" "b" none)
          [KnownBlock.sectionBlock ⟨"mrkdwn", longA⟩]
        = [KnownBlock.sectionBlock ⟨"mrkdwn", longA ++ "b"⟩] := by
      show addMrkdwn (parseMrkdwn (Token.text "b" "b" none))
          [KnownBlock.sectionBlock ⟨"mrkdwn", longA⟩] = _
      rw [addMrkdwn_section_single]
      rfl
    rw [h0, parseParagraph, List.foldl_cons, List.foldl_cons, List.foldl_nil,
      e1, e2]
  · rw [String.length_append]
    have h1 : longA.length = 3000 := by
      show (List.replicate 3000 'a').length = 3000
      rw [List.length_replicate]
    have h2 : "b".length = 1 := rfl
    rw [h1, h2]
    decide
